import Mathlib

/-!
# Name-Fragment Overlap Analyzer — verification development

A shallow embedding of the analysis pipeline of `superpacs.py` (`main`,
lines 122–196): name normalization (article relocation, punctuation
stripping, whitespace collapse), n-gram fragment extraction, cross-entity
index building, deduplication/filtering, ranking, and receipt aggregation.

Strings are modelled as `List Char` (`str` converts a Lean string
literal).  Python dictionaries are modelled as insertion-ordered
association lists, whereas CPython 2 dicts iterate in hash-slot order;
consequently only facts invariant under permuting a dict's entries
(entry membership, counts, key sets, lookups, and orderings whose sort
keys are distinct) are read off as facts about the program, and the
order among entries whose sort keys tie is never asserted.  `sorted` (a
stable sort) is modelled by `List.insertionSort`, which is also stable,
so sorted outputs agree wherever the comparison keys decide the order.
-/

namespace Superpacs

def str (s : String) : List Char := s.data

/-- `pat.startsWith s`-style check: does `s` begin with `pat`? -/
def startsWith : List Char → List Char → Bool
  | [], _ => true
  | _ :: _, [] => false
  | p :: ps, c :: cs => p = c && startsWith ps cs

/-- `s.find(pat) > -1` in Python: does `pat` occur as a contiguous
substring of `s`?  (For nonempty `pat`.) -/
def occursIn (pat : List Char) : List Char → Bool
  | [] => startsWith pat []
  | c :: rest => startsWith pat (c :: rest) || occursIn pat rest

/-- `s.replace(pat, "")` in Python: remove every non-overlapping
occurrence of `pat`, scanning left to right.  Structural recursion on a
fuel argument so the kernel can evaluate it. -/
def replaceAllAux (pat : List Char) : Nat → List Char → List Char
  | 0, s => s
  | _ + 1, [] => []
  | fuel + 1, c :: rest =>
    if startsWith pat (c :: rest) && !pat.isEmpty then
      replaceAllAux pat fuel ((c :: rest).drop pat.length)
    else
      c :: replaceAllAux pat fuel rest

def replaceAll (pat s : List Char) : List Char := replaceAllAux pat s.length s

def semiThe : List Char := str "; THE"
def commaThe : List Char := str ", THE"

/-- Lines 126–132: move a trailing article to the front.  If the name
contains `"; THE"` or `", THE"`, remove all occurrences of both markers
(two sequential `str.replace` passes) and prepend `"THE "`. -/
def relocateArticle (s : List Char) : List Char :=
  if occursIn semiThe s || occursIn commaThe s then
    str "THE " ++ replaceAll commaThe (replaceAll semiThe s)
  else s

/-- Line 136, inner `re.sub(r'[,()/]', ' ', name)`: replace each of the
characters `,` `(` `)` `/` with a space. -/
def isPunct (c : Char) : Bool := c = ',' || c = '(' || c = ')' || c = '/'

def stripPunct (s : List Char) : List Char :=
  s.map (fun c => if isPunct c then ' ' else c)

/-- Line 136, outer `re.sub(r' +', ' ', …)`: collapse each maximal run
of spaces to a single space.  The flag records whether the previously
kept character was a space. -/
def collapseFrom : Bool → List Char → List Char
  | _, [] => []
  | prevSpace, c :: rest =>
    if c = ' ' then
      if prevSpace then collapseFrom true rest
      else c :: collapseFrom true rest
    else c :: collapseFrom false rest

def collapseSpaces (s : List Char) : List Char := collapseFrom false s

/-- Python 2 `str.isspace` characters, as stripped by `str.strip()`. -/
def isPySpace (c : Char) : Bool :=
  c = ' ' || c = '\t' || c = '\n' || c = '\r' || c = '\x0b' || c = '\x0c'

/-- `s.strip()`: drop leading and trailing whitespace. -/
def pyStrip (s : List Char) : List Char :=
  ((s.dropWhile isPySpace).reverse.dropWhile isPySpace).reverse

/-- Lines 126–137: the full name normalization applied to each name. -/
def normalize (s : List Char) : List Char :=
  pyStrip (collapseSpaces (stripPunct (relocateArticle s)))

/-- `name.split(' ')` in Python: split on every single space character;
the empty string yields `[""]`. -/
def splitOnSpace : List Char → List (List Char)
  | [] => [[]]
  | c :: rest =>
    let r := splitOnSpace rest
    if c = ' ' then [] :: r
    else
      match r with
      | [] => [[c]]
      | w :: ws => (c :: w) :: ws

/-- `' '.join(words)`. -/
def joinSpaces (ws : List (List Char)) : List Char := List.intercalate [' '] ws

/-- Lines 148–151: the `word_count - n + 1` contiguous `n`-word windows
of `name_words`, each joined with single spaces. -/
def windows (ws : List (List Char)) (n : Nat) : List (List Char) :=
  (List.range (ws.length - n + 1)).map (fun x => joinSpaces ((ws.drop x).take n))

/-- Lines 145–151: per-name fragment generation, one entry per length
`n ∈ {1, …, W − 1}` where `W` is the word count. -/
def fragmentsOfName (name : List Char) : List (Nat × List (List Char)) :=
  let ws := splitOnSpace name
  (List.range' 1 (ws.length - 1)).map (fun n => (n, windows ws n))

/-- A length bucket: fragment text ↦ list of original entity names. -/
abbrev Bucket := List (List Char × List (List Char))

/-- The fragment index `by_length`: length ↦ bucket. -/
abbrev Index := List (Nat × Bucket)

/-- Lines 155–158: append `nm` to the entity list of fragment `g`,
creating the entry when absent.  The association list keeps insertion
order; a CPython 2 dict iterates in hash-slot order instead, so the
entry order of a bucket is a modelling choice and only
permutation-invariant consequences are program facts. -/
def bucketAdd (b : Bucket) (g nm : List Char) : Bucket :=
  match b with
  | [] => [(g, [nm])]
  | (g', nms) :: rest =>
    if g' = g then (g', nms ++ [nm]) :: rest
    else (g', nms) :: bucketAdd rest g nm

def indexAdd (idx : Index) (n : Nat) (g nm : List Char) : Index :=
  match idx with
  | [] => [(n, bucketAdd [] g nm)]
  | (n', b) :: rest =>
    if n' = n then (n', bucketAdd b g nm) :: rest
    else (n', b) :: indexAdd rest n g nm

/-- Lines 140–158: build the raw index from `(normalized, original)`
name pairs, in input order. -/
def buildIndex (pairs : List (List Char × List Char)) : Index :=
  pairs.foldl
    (fun idx p =>
      (fragmentsOfName p.1).foldl
        (fun idx ng => ng.2.foldl (fun idx g => indexAdd idx ng.1 g p.2) idx)
        idx)
    []

/-- Lines 160–167: `list(set(...))` each entity list, delete fragments
whose deduplicated list has length 1, then delete emptied buckets. -/
def dedupFilter (idx : Index) : Index :=
  (idx.map (fun nb =>
      (nb.1, (nb.2.map (fun p => (p.1, p.2.dedup))).filter
        (fun p => p.2.length ≠ 1)))).filter
    (fun nb => nb.2 ≠ [])

/-- Lines 170–183: per bucket, stable-sort fragments by entity count
descending, then stable-sort each fragment's entity list by first index
in the original input list, ascending. -/
def rankIndex (origNames : List (List Char)) (idx : Index) : Index :=
  idx.map (fun nb =>
    (nb.1,
      (nb.2.insertionSort (fun p q => q.2.length ≤ p.2.length)).map
        (fun p =>
          (p.1,
            p.2.insertionSort
              (fun a b => origNames.indexOf a ≤ origNames.indexOf b)))))

/-- One input entity record: a name, and `total_receipts` when the key
is present on the record. -/
structure Entity where
  name : List Char
  total_receipts : Option Int
deriving DecidableEq

/-- Line 191: `item["total_receipts"] if "total_receipts" in item else 0`. -/
def totalOrZero (e : Entity) : Int := e.total_receipts.getD 0

def originalNames (items : List Entity) : List (List Char) := items.map (·.name)

/-- Lines 122–137: the list of normalized names, in input order. -/
def normalizedNames (items : List Entity) : List (List Char) :=
  (originalNames items).map normalize

/-- The deduplicated, filtered index (`by_length` after lines 160–167). -/
def pipelineIndex (items : List Entity) : Index :=
  dedupFilter (buildIndex ((normalizedNames items).zip (originalNames items)))

/-- `top_ngrams` (lines 170–183). -/
def rankedIndex (items : List Entity) : Index :=
  rankIndex (originalNames items) (pipelineIndex items)

/-- Association-list model of a Python dict insertion `m[k] = v`:
overwrite when present, append when absent. -/
def dictInsert (m : List (List Char × Int)) (k : List Char) (v : Int) :
    List (List Char × Int) :=
  match m with
  | [] => [(k, v)]
  | (k', v') :: rest =>
    if k' = k then (k', v) :: rest
    else (k', v') :: dictInsert rest k v

def dictFind (m : List (List Char × Int)) (k : List Char) : Option Int :=
  match m with
  | [] => none
  | (k', v) :: rest => if k' = k then some v else dictFind rest k

/-- Line 191: `all_receipts`, a dict built left to right over the input
records, so a repeated name keeps the last record's total. -/
def allReceipts (items : List Entity) : List (List Char × Int) :=
  items.foldl (fun m it => dictInsert m it.name (totalOrZero it)) []

/-- Lines 195–196 for one fragment's name list: each lookup
`all_receipts[name]` raises (here: `none`) when the key is absent. -/
def addNames (all : List (List Char × Int)) :
    List (List Char × Int) → List (List Char) → Option (List (List Char × Int))
  | acc, [] => some acc
  | acc, nm :: rest =>
    match dictFind all nm with
    | none => none
    | some v => addNames all (dictInsert acc nm v) rest

def addBucket (all : List (List Char × Int)) :
    List (List Char × Int) → Bucket → Option (List (List Char × Int))
  | acc, [] => some acc
  | acc, (_, nms) :: rest =>
    match addNames all acc nms with
    | none => none
    | some acc' => addBucket all acc' rest

def addIndex (all : List (List Char × Int)) :
    List (List Char × Int) → Index → Option (List (List Char × Int))
  | acc, [] => some acc
  | acc, (_, b) :: rest =>
    match addBucket all acc b with
    | none => none
    | some acc' => addIndex all acc' rest

/-- Lines 191–196: `specific_receipts`, the receipt table restricted to
entities referenced by the ranked index. -/
def specificReceipts (items : List Entity) : Option (List (List Char × Int)) :=
  addIndex (allReceipts items) [] (rankedIndex items)

/-- Remove only the first occurrence of `pat` from `s`. -/
def removeFirst (pat : List Char) : List Char → List Char
  | [] => []
  | c :: rest =>
    if startsWith pat (c :: rest) then (c :: rest).drop pat.length
    else c :: removeFirst pat rest

/-- Article relocation as the specification describes it: remove exactly
one occurrence of the marker substring and prepend `"THE "`, a single
relocation even when both marker forms are present. -/
def relocateOnceSpec (s : List Char) : List Char :=
  if occursIn semiThe s then str "THE " ++ removeFirst semiThe s
  else if occursIn commaThe s then str "THE " ++ removeFirst commaThe s
  else s

/-- Normalization with the specification's single-occurrence relocation
in place of the code's remove-all relocation. -/
def normalizeOnceSpec (s : List Char) : List Char :=
  pyStrip (collapseSpaces (stripPunct (relocateOnceSpec s)))

/-- The specification's end-to-end example input. -/
def exItems : List Entity :=
  [⟨str "AMERICANS FOR PROSPERITY, THE", some 100⟩,
   ⟨str "AMERICANS FOR LIBERTY", some 50⟩,
   ⟨str "PEOPLE FOR AMERICANS", some 10⟩]

/-- An input whose two records carry the identical raw name. -/
def dupItems : List Entity :=
  [⟨str "ACME FUND ONE", some 5⟩, ⟨str "ACME FUND ONE", some 7⟩]

/-- Adjacent characters are not both spaces (whitespace-collapse
output invariant). -/
def spacePair (a b : Char) : Prop := ¬(a = ' ' ∧ b = ' ')

/-! ## Theorems -/

lemma splitOnSpace_ne_nil (s : List Char) : splitOnSpace s ≠ [] := by
  cases s with
  | nil => simp [splitOnSpace]
  | cons c rest =>
    by_cases hc : c = ' '
    · simp [splitOnSpace, hc]
    · simp only [splitOnSpace, if_neg hc]
      cases splitOnSpace rest <;> simp

/-- C1, counterexample: on the specification's end-to-end example the
length-2 fragment `"FOR AMERICANS"` does not appear anywhere in the
ranked output — it is generated only by the third entity (it is not a
contiguous 2-word window of `"AMERICANS FOR LIBERTY"`), so filtering
drops it — even though the length-2 bucket itself is present.  Which
`(fragment, entity-set)` pairs exist is invariant under the dict
iteration order, so this absence is a fact about the program and not
about this model's bucket order. -/
theorem C1_counterexample :
    (∀ nb ∈ rankedIndex exItems, ∀ p ∈ nb.2, p.1 ≠ str "FOR AMERICANS") ∧
    2 ∈ (rankedIndex exItems).map Prod.fst := by
  decide

/-- C1, amended: on the end-to-end example the normalized names are as
claimed; the ranked index has exactly the length buckets 1 and 2; the
length-1 bucket consists exactly of the fragments `"AMERICANS"` and
`"FOR"`, each shared by all three entities (count 3), so `"AMERICANS"`
ties for the top count rather than ranking strictly first (the order
between the two tied fragments is the dict's hash-slot iteration order,
which is not modelled here); the length-2 bucket consists exactly of
`"AMERICANS FOR"`, shared by entities 1 and 2 only; and the receipt
table maps exactly the three input names to 100, 50 and 10.  Every
conjunct is invariant under bucket iteration order (membership, counts,
the per-fragment name lists — which sort by distinct first-appearance
indices — and the receipt mapping), so each is a program fact. -/
theorem C1_amended :
    normalizedNames exItems =
      [str "THE AMERICANS FOR PROSPERITY", str "AMERICANS FOR LIBERTY",
       str "PEOPLE FOR AMERICANS"] ∧
    (∀ nb ∈ rankedIndex exItems, nb.1 = 1 ∨ nb.1 = 2) ∧
    1 ∈ (rankedIndex exItems).map Prod.fst ∧
    2 ∈ (rankedIndex exItems).map Prod.fst ∧
    (∀ nb ∈ rankedIndex exItems, nb.1 = 1 →
      (str "AMERICANS",
        [str "AMERICANS FOR PROSPERITY, THE", str "AMERICANS FOR LIBERTY",
         str "PEOPLE FOR AMERICANS"]) ∈ nb.2 ∧
      (str "FOR",
        [str "AMERICANS FOR PROSPERITY, THE", str "AMERICANS FOR LIBERTY",
         str "PEOPLE FOR AMERICANS"]) ∈ nb.2 ∧
      ∀ p ∈ nb.2, (p.1 = str "AMERICANS" ∨ p.1 = str "FOR") ∧
        p.2.length = 3) ∧
    (∀ nb ∈ rankedIndex exItems, nb.1 = 2 →
      (str "AMERICANS FOR",
        [str "AMERICANS FOR PROSPERITY, THE",
         str "AMERICANS FOR LIBERTY"]) ∈ nb.2 ∧
      ∀ p ∈ nb.2, p.1 = str "AMERICANS FOR") ∧
    (specificReceipts exItems).isSome = true ∧
    dictFind ((specificReceipts exItems).getD [])
      (str "AMERICANS FOR PROSPERITY, THE") = some 100 ∧
    dictFind ((specificReceipts exItems).getD [])
      (str "AMERICANS FOR LIBERTY") = some 50 ∧
    dictFind ((specificReceipts exItems).getD [])
      (str "PEOPLE FOR AMERICANS") = some 10 ∧
    (∀ q ∈ (specificReceipts exItems).getD [],
      q.1 = str "AMERICANS FOR PROSPERITY, THE" ∨
      q.1 = str "AMERICANS FOR LIBERTY" ∨
      q.1 = str "PEOPLE FOR AMERICANS") := by
  decide

/-- C3, counterexample: on `"A, THE B, THE"` (which contains the marker
`", THE"` twice) the code removes both occurrences and yields
`"THE A B"`, while removing exactly one occurrence as the claim states
would yield `"THE A B THE"`. -/
theorem C3_counterexample :
    occursIn commaThe (str "A, THE B, THE") = true ∧
    normalize (str "A, THE B, THE") = str "THE A B" ∧
    normalizeOnceSpec (str "A, THE B, THE") = str "THE A B THE" ∧
    normalize (str "A, THE B, THE") ≠ normalizeOnceSpec (str "A, THE B, THE") := by
  decide

/-- C3, amended: for every raw name containing `"; THE"` or `", THE"`,
normalization removes every occurrence of both marker substrings and
prepends `"THE "` once; in particular `normalize("ACME PAC; THE")` and
`normalize("ACME PAC, THE")` both yield `"THE ACME PAC"`. -/
theorem C3_amended :
    (∀ s, (occursIn semiThe s || occursIn commaThe s) = true →
      normalize s =
        pyStrip (collapseSpaces (stripPunct
          (str "THE " ++ replaceAll commaThe (replaceAll semiThe s))))) ∧
    normalize (str "ACME PAC; THE") = str "THE ACME PAC" ∧
    normalize (str "ACME PAC, THE") = str "THE ACME PAC" := by
  refine ⟨fun s h => ?_, by decide, by decide⟩
  simp only [normalize, relocateArticle, h, if_true]

/-- C3, witness for the amended theorem's hypothesis at a concrete
input. -/
theorem C3_amended_witness :
    (occursIn semiThe (str "ACME PAC; THE") ||
      occursIn commaThe (str "ACME PAC; THE")) = true ∧
    normalize (str "ACME PAC; THE") =
      pyStrip (collapseSpaces (stripPunct
        (str "THE " ++
          replaceAll commaThe (replaceAll semiThe (str "ACME PAC; THE"))))) :=
  ⟨by decide, C3_amended.1 (str "ACME PAC; THE") (by decide)⟩

lemma bucketAdd_val_ne_nil {b : Bucket} {g nm : List Char}
    (hb : ∀ p ∈ b, p.2 ≠ []) : ∀ p ∈ bucketAdd b g nm, p.2 ≠ [] := by
  induction b with
  | nil => intro p hp; simp [bucketAdd] at hp; simp [hp]
  | cons q rest ih =>
    intro p hp
    obtain ⟨g', nms⟩ := q
    simp only [bucketAdd] at hp
    by_cases hg : g' = g
    · rw [if_pos hg] at hp
      rcases List.mem_cons.mp hp with h | h
      · simp [h]
      · exact hb p (List.mem_cons_of_mem _ h)
    · rw [if_neg hg] at hp
      rcases List.mem_cons.mp hp with h | h
      · subst h; exact hb _ (List.mem_cons_self _ _)
      · exact ih (fun q hq => hb q (List.mem_cons_of_mem _ hq)) p h

lemma indexAdd_val_ne_nil {idx : Index} {n : Nat} {g nm : List Char}
    (h : ∀ nb ∈ idx, ∀ p ∈ nb.2, p.2 ≠ []) :
    ∀ nb ∈ indexAdd idx n g nm, ∀ p ∈ nb.2, p.2 ≠ [] := by
  induction idx with
  | nil =>
    intro nb hnb
    simp [indexAdd] at hnb
    subst hnb
    exact bucketAdd_val_ne_nil (by simp)
  | cons q rest ih =>
    intro nb hnb
    obtain ⟨n', b⟩ := q
    simp only [indexAdd] at hnb
    by_cases hn : n' = n
    · rw [if_pos hn] at hnb
      rcases List.mem_cons.mp hnb with h' | h'
      · subst h'
        exact bucketAdd_val_ne_nil (h _ (List.mem_cons_self _ _))
      · exact h nb (List.mem_cons_of_mem _ h')
    · rw [if_neg hn] at hnb
      rcases List.mem_cons.mp hnb with h' | h'
      · subst h'; exact h _ (List.mem_cons_self _ _)
      · exact ih (fun q hq => h q (List.mem_cons_of_mem _ hq)) nb h'

lemma buildIndex_val_ne_nil (pairs : List (List Char × List Char)) :
    ∀ nb ∈ buildIndex pairs, ∀ p ∈ nb.2, p.2 ≠ [] := by
  unfold buildIndex
  refine List.foldlRecOn
    (motive := fun idx : Index => ∀ nb ∈ idx, ∀ p ∈ nb.2, p.2 ≠ [])
    pairs _ _ ?_ ?_
  · intro nb hnb
    exact absurd hnb (List.not_mem_nil _)
  intro idx hidx pr _
  refine List.foldlRecOn
    (motive := fun idx : Index => ∀ nb ∈ idx, ∀ p ∈ nb.2, p.2 ≠ [])
    _ _ _ hidx ?_
  intro idx' hidx' ng _
  refine List.foldlRecOn
    (motive := fun idx : Index => ∀ nb ∈ idx, ∀ p ∈ nb.2, p.2 ≠ [])
    _ _ _ hidx' ?_
  intro idx'' hidx'' g _
  exact indexAdd_val_ne_nil hidx''

/-- The dedup/filter invariant of the pipeline's filtered index. -/
lemma pipelineIndex_inv (items : List Entity) :
    ∀ nb ∈ pipelineIndex items,
      nb.2 ≠ [] ∧ ∀ p ∈ nb.2, p.2.Nodup ∧ 2 ≤ p.2.length := by
  intro nb hnb
  unfold pipelineIndex dedupFilter at hnb
  rw [List.mem_filter] at hnb
  obtain ⟨hmem, hne⟩ := hnb
  refine ⟨by simpa using hne, ?_⟩
  rw [List.mem_map] at hmem
  obtain ⟨nb₀, hnb₀, rfl⟩ := hmem
  intro p hp
  rw [List.mem_filter] at hp
  obtain ⟨hp₀, hlen⟩ := hp
  rw [List.mem_map] at hp₀
  obtain ⟨q, hq, rfl⟩ := hp₀
  refine ⟨List.nodup_dedup _, ?_⟩
  have hqne : q.2 ≠ [] := buildIndex_val_ne_nil _ nb₀ hnb₀ q hq
  have hdne : q.2.dedup ≠ [] := fun h => hqne ((List.dedup_eq_nil q.2).mp h)
  have h1 : 1 ≤ q.2.dedup.length := List.length_pos.mpr hdne
  have h2 : q.2.dedup.length ≠ 1 := by simpa using hlen
  show 2 ≤ q.2.dedup.length
  omega

/-- C2: in the final filtered index, every fragment's entity-name list
has pairwise distinct members and at least 2 of them (so no
single-entity fragment survives), and every remaining length bucket is
nonempty (emptied buckets are absent). -/
theorem C2_filtering_invariant (items : List Entity) :
    ∀ nb ∈ pipelineIndex items,
      nb.2 ≠ [] ∧ ∀ p ∈ nb.2, p.2.Nodup ∧ 2 ≤ p.2.length :=
  pipelineIndex_inv items

/-- C2, witness: the invariant at a concrete bucket of the example. -/
theorem C2_filtering_invariant_witness :
    ([(str "AMERICANS",
        [str "AMERICANS FOR PROSPERITY, THE", str "AMERICANS FOR LIBERTY",
         str "PEOPLE FOR AMERICANS"]),
      (str "FOR",
        [str "AMERICANS FOR PROSPERITY, THE", str "AMERICANS FOR LIBERTY",
         str "PEOPLE FOR AMERICANS"])] : Bucket) ≠ [] ∧
    ∀ p ∈ ([(str "AMERICANS",
        [str "AMERICANS FOR PROSPERITY, THE", str "AMERICANS FOR LIBERTY",
         str "PEOPLE FOR AMERICANS"]),
      (str "FOR",
        [str "AMERICANS FOR PROSPERITY, THE", str "AMERICANS FOR LIBERTY",
         str "PEOPLE FOR AMERICANS"])] : Bucket), p.2.Nodup ∧ 2 ≤ p.2.length :=
  C2_filtering_invariant exItems
    (1, [(str "AMERICANS",
        [str "AMERICANS FOR PROSPERITY, THE", str "AMERICANS FOR LIBERTY",
         str "PEOPLE FOR AMERICANS"]),
      (str "FOR",
        [str "AMERICANS FOR PROSPERITY, THE", str "AMERICANS FOR LIBERTY",
         str "PEOPLE FOR AMERICANS"])])
    (by decide)

/-- C4: for a normalized name with `W` space-separated words, fragment
extraction produces fragments only for lengths `1 ≤ n < W` (never the
full-length fragment `n = W`), at each such length exactly the
`W − n + 1` contiguous `n`-word windows, and no fragments at all when
`W ≤ 1`. -/
theorem C4_fragment_extraction (name : List Char) :
    (∀ p ∈ fragmentsOfName name,
        1 ≤ p.1 ∧ p.1 < (splitOnSpace name).length ∧
        p.2.length = (splitOnSpace name).length - p.1 + 1 ∧
        p.2 = (List.range ((splitOnSpace name).length - p.1 + 1)).map
          (fun x => joinSpaces (((splitOnSpace name).drop x).take p.1))) ∧
    (∀ n, 1 ≤ n → n < (splitOnSpace name).length →
        (n, windows (splitOnSpace name) n) ∈ fragmentsOfName name) ∧
    ((splitOnSpace name).length ≤ 1 → fragmentsOfName name = []) := by
  have hne : splitOnSpace name ≠ [] := splitOnSpace_ne_nil name
  have hW : 1 ≤ (splitOnSpace name).length := List.length_pos.mpr hne
  refine ⟨?_, ?_, ?_⟩
  · intro p hp
    simp only [fragmentsOfName, List.mem_map] at hp
    obtain ⟨n, hn, rfl⟩ := hp
    rw [List.mem_range'_1] at hn
    refine ⟨hn.1, by omega, ?_, rfl⟩
    simp [windows]
  · intro n h1 h2
    simp only [fragmentsOfName, List.mem_map]
    exact ⟨n, List.mem_range'_1.mpr ⟨h1, by omega⟩, rfl⟩
  · intro h
    have h0 : (splitOnSpace name).length - 1 = 0 := by omega
    simp [fragmentsOfName, h0]

/-- C4, witness: concrete instances of the extraction properties. -/
theorem C4_fragment_extraction_witness :
    (1, windows (splitOnSpace (str "A B C")) 1) ∈
      fragmentsOfName (str "A B C") ∧
    fragmentsOfName (str "SOLO") = [] :=
  ⟨(C4_fragment_extraction (str "A B C")).2.1 1 (by decide) (by decide),
   (C4_fragment_extraction (str "SOLO")).2.2 (by decide)⟩

/-- C5: within every length bucket of the ranked output, fragments are
sorted by distinct-entity count, descending: each fragment's entity
count is at least the next one's. -/
theorem C5_ranking_monotone (items : List Entity) :
    ∀ nb ∈ rankedIndex items,
      nb.2.Pairwise (fun p q : List Char × List (List Char) =>
        q.2.length ≤ p.2.length) := by
  intro nb hnb
  unfold rankedIndex rankIndex at hnb
  rw [List.mem_map] at hnb
  obtain ⟨nb₀, _, rfl⟩ := hnb
  have hinst1 : IsTotal (List Char × List (List Char))
      (fun p q => q.2.length ≤ p.2.length) :=
    ⟨fun a b => Nat.le_total b.2.length a.2.length⟩
  have hinst2 : IsTrans (List Char × List (List Char))
      (fun p q => q.2.length ≤ p.2.length) :=
    ⟨fun _ _ _ hab hbc => le_trans hbc hab⟩
  have hs := List.sorted_insertionSort
    (fun p q : List Char × List (List Char) => q.2.length ≤ p.2.length) nb₀.2
  rw [List.pairwise_map]
  refine hs.imp ?_
  intro a b hab
  simpa [List.length_insertionSort] using hab

/-- C5, witness: the sortedness at the concrete length-1 bucket of the
example input. -/
theorem C5_ranking_monotone_witness :
    List.Pairwise (fun p q : List Char × List (List Char) =>
        q.2.length ≤ p.2.length)
      [(str "AMERICANS",
          [str "AMERICANS FOR PROSPERITY, THE", str "AMERICANS FOR LIBERTY",
           str "PEOPLE FOR AMERICANS"]),
        (str "FOR",
          [str "AMERICANS FOR PROSPERITY, THE", str "AMERICANS FOR LIBERTY",
           str "PEOPLE FOR AMERICANS"])] :=
  C5_ranking_monotone exItems
    (1, [(str "AMERICANS",
          [str "AMERICANS FOR PROSPERITY, THE", str "AMERICANS FOR LIBERTY",
           str "PEOPLE FOR AMERICANS"]),
        (str "FOR",
          [str "AMERICANS FOR PROSPERITY, THE", str "AMERICANS FOR LIBERTY",
           str "PEOPLE FOR AMERICANS"])])
    (by decide)

/-- C6: under every fragment of the ranked output, the entity names are
ordered by ascending first-appearance index in the original input
list. -/
theorem C6_entity_order (items : List Entity) :
    ∀ nb ∈ rankedIndex items, ∀ p ∈ nb.2,
      p.2.Pairwise (fun a b =>
        (originalNames items).indexOf a ≤ (originalNames items).indexOf b) := by
  intro nb hnb p hp
  unfold rankedIndex rankIndex at hnb
  rw [List.mem_map] at hnb
  obtain ⟨nb₀, _, rfl⟩ := hnb
  simp only at hp
  rw [List.mem_map] at hp
  obtain ⟨q, _, rfl⟩ := hp
  have hinst1 : IsTotal (List Char)
      (fun a b => (originalNames items).indexOf a ≤ (originalNames items).indexOf b) :=
    ⟨fun a b => Nat.le_total _ _⟩
  have hinst2 : IsTrans (List Char)
      (fun a b => (originalNames items).indexOf a ≤ (originalNames items).indexOf b) :=
    ⟨fun _ _ _ hab hbc => le_trans hab hbc⟩
  exact List.sorted_insertionSort _ q.2

/-- C6, witness: the ordering at the concrete length-2 fragment of the
example input (entity 1 before entity 2). -/
theorem C6_entity_order_witness :
    List.Pairwise (fun a b =>
        (originalNames exItems).indexOf a ≤ (originalNames exItems).indexOf b)
      [str "AMERICANS FOR PROSPERITY, THE", str "AMERICANS FOR LIBERTY"] :=
  C6_entity_order exItems
    (2, [(str "AMERICANS FOR",
          [str "AMERICANS FOR PROSPERITY, THE", str "AMERICANS FOR LIBERTY"])])
    (by decide)
    (str "AMERICANS FOR",
      [str "AMERICANS FOR PROSPERITY, THE", str "AMERICANS FOR LIBERTY"])
    (by decide)

lemma dictFind_dictInsert_self (m : List (List Char × Int)) (k : List Char)
    (v : Int) : dictFind (dictInsert m k v) k = some v := by
  induction m with
  | nil => simp [dictInsert, dictFind]
  | cons q rest ih =>
    obtain ⟨k', v'⟩ := q
    by_cases h : k' = k
    · simp [dictInsert, dictFind, h]
    · simp [dictInsert, dictFind, h, ih]

lemma dictFind_dictInsert_ne (m : List (List Char × Int)) {k k' : List Char}
    (v : Int) (h : k' ≠ k) :
    dictFind (dictInsert m k v) k' = dictFind m k' := by
  have hks : ¬k = k' := fun hh => h hh.symm
  induction m with
  | nil => simp [dictInsert, dictFind, hks]
  | cons q rest ih =>
    obtain ⟨k'', v''⟩ := q
    by_cases h2 : k'' = k
    · simp [dictInsert, dictFind, h2, hks]
    · simp [dictInsert, dictFind, h2, ih]

lemma mem_keys_dictInsert (m : List (List Char × Int)) (k : List Char) (v : Int)
    (x : List Char) :
    x ∈ (dictInsert m k v).map Prod.fst ↔ x ∈ m.map Prod.fst ∨ x = k := by
  induction m with
  | nil => simp [dictInsert]
  | cons q rest ih =>
    obtain ⟨k', v'⟩ := q
    by_cases h : k' = k
    · subst h
      simp [dictInsert]
      tauto
    · simp [dictInsert, h, ih]
      tauto

lemma dictFind_isSome_iff_mem_keys (m : List (List Char × Int)) (k : List Char) :
    (dictFind m k).isSome = true ↔ k ∈ m.map Prod.fst := by
  induction m with
  | nil => simp [dictFind]
  | cons q rest ih =>
    obtain ⟨k', v'⟩ := q
    by_cases h : k' = k
    · simp [dictFind, h]
    · have h' : ¬k = k' := fun hh => h hh.symm
      simp [dictFind, h, h', ih]

lemma dictFind_foldl_insert (items : List Entity) :
    ∀ (m : List (List Char × Int)) (nm : List Char),
      dictFind (items.foldl (fun m it => dictInsert m it.name (totalOrZero it)) m)
          nm =
        match (items.filter (fun it => it.name = nm)).getLast? with
        | some e => some (totalOrZero e)
        | none => dictFind m nm := by
  induction items with
  | nil => intro m nm; simp [dictFind]
  | cons it rest ih =>
    intro m nm
    by_cases h : it.name = nm
    · subst h
      rw [List.foldl_cons, ih]
      rw [List.filter_cons_of_pos (by simp)]
      cases hl : (rest.filter (fun r => r.name = it.name)).getLast? with
      | some e => simp [List.getLast?_cons, hl]
      | none =>
        have : rest.filter (fun r => r.name = it.name) = [] := by
          rcases List.eq_nil_or_concat (rest.filter (fun r => r.name = it.name))
            with h0 | ⟨l', a, h0⟩
          · exact h0
          · rw [h0] at hl
            simp at hl
        simp [List.getLast?_cons, hl, dictFind_dictInsert_self]
    · rw [List.foldl_cons, ih]
      rw [List.filter_cons_of_neg (by simp [h])]
      cases (rest.filter (fun r => r.name = nm)).getLast? with
      | some e => rfl
      | none => exact dictFind_dictInsert_ne m (totalOrZero it) fun hh => h hh.symm

/-- Line 191: looking a name up in `all_receipts` yields the total of
the last input record carrying that name. -/
lemma dictFind_allReceipts (items : List Entity) (nm : List Char) :
    dictFind (allReceipts items) nm =
      ((items.filter (fun it => it.name = nm)).getLast?).map totalOrZero := by
  rw [allReceipts, dictFind_foldl_insert]
  cases (items.filter (fun it => it.name = nm)).getLast? with
  | some e => rfl
  | none => rfl

lemma mem_keys_allReceipts (items : List Entity) (nm : List Char) :
    nm ∈ (allReceipts items).map Prod.fst ↔ nm ∈ originalNames items := by
  rw [← dictFind_isSome_iff_mem_keys, dictFind_allReceipts]
  rw [Option.isSome_map']
  rw [List.getLast?_isSome]
  constructor
  · intro h
    obtain ⟨e, he⟩ := List.exists_mem_of_ne_nil _ h
    rw [List.mem_filter] at he
    rw [originalNames, List.mem_map]
    exact ⟨e, he.1, by simpa using he.2⟩
  · intro h
    rw [originalNames, List.mem_map] at h
    obtain ⟨e, he, hname⟩ := h
    intro hnil
    rw [List.filter_eq_nil_iff] at hnil
    exact hnil e he (by simp [hname])

lemma bucketAdd_namesIn {b : Bucket} {g nm : List Char} {S : List (List Char)}
    (hb : ∀ p ∈ b, ∀ x ∈ p.2, x ∈ S) (hnm : nm ∈ S) :
    ∀ p ∈ bucketAdd b g nm, ∀ x ∈ p.2, x ∈ S := by
  induction b with
  | nil =>
    intro p hp x hx
    simp [bucketAdd] at hp
    subst hp
    simp at hx
    subst hx
    exact hnm
  | cons q rest ih =>
    intro p hp x hx
    obtain ⟨g', nms⟩ := q
    simp only [bucketAdd] at hp
    by_cases hg : g' = g
    · rw [if_pos hg] at hp
      rcases List.mem_cons.mp hp with h | h
      · subst h
        simp only at hx
        rcases List.mem_append.mp hx with h' | h'
        · exact hb _ (List.mem_cons_self _ _) x h'
        · simp at h'
          subst h'
          exact hnm
      · exact hb p (List.mem_cons_of_mem _ h) x hx
    · rw [if_neg hg] at hp
      rcases List.mem_cons.mp hp with h | h
      · subst h
        exact hb _ (List.mem_cons_self _ _) x hx
      · exact ih (fun q hq => hb q (List.mem_cons_of_mem _ hq)) p h x hx

lemma indexAdd_namesIn {idx : Index} {n : Nat} {g nm : List Char}
    {S : List (List Char)}
    (h : ∀ nb ∈ idx, ∀ p ∈ nb.2, ∀ x ∈ p.2, x ∈ S) (hnm : nm ∈ S) :
    ∀ nb ∈ indexAdd idx n g nm, ∀ p ∈ nb.2, ∀ x ∈ p.2, x ∈ S := by
  induction idx with
  | nil =>
    intro nb hnb
    simp [indexAdd] at hnb
    subst hnb
    exact bucketAdd_namesIn (by simp) hnm
  | cons q rest ih =>
    intro nb hnb
    obtain ⟨n', b⟩ := q
    simp only [indexAdd] at hnb
    by_cases hn : n' = n
    · rw [if_pos hn] at hnb
      rcases List.mem_cons.mp hnb with h' | h'
      · subst h'
        exact bucketAdd_namesIn (h _ (List.mem_cons_self _ _)) hnm
      · exact h nb (List.mem_cons_of_mem _ h')
    · rw [if_neg hn] at hnb
      rcases List.mem_cons.mp hnb with h' | h'
      · subst h'
        exact h _ (List.mem_cons_self _ _)
      · exact ih (fun q hq => h q (List.mem_cons_of_mem _ hq)) nb h'

lemma buildIndex_namesIn (pairs : List (List Char × List Char)) :
    ∀ nb ∈ buildIndex pairs, ∀ p ∈ nb.2, ∀ x ∈ p.2, x ∈ pairs.map Prod.snd := by
  unfold buildIndex
  refine List.foldlRecOn
    (motive := fun idx : Index =>
      ∀ nb ∈ idx, ∀ p ∈ nb.2, ∀ x ∈ p.2, x ∈ pairs.map Prod.snd)
    pairs _ _ ?_ ?_
  · intro nb hnb
    exact absurd hnb (List.not_mem_nil _)
  intro idx hidx pr hpr
  have hmem : pr.2 ∈ pairs.map Prod.snd := List.mem_map.mpr ⟨pr, hpr, rfl⟩
  refine List.foldlRecOn
    (motive := fun idx : Index =>
      ∀ nb ∈ idx, ∀ p ∈ nb.2, ∀ x ∈ p.2, x ∈ pairs.map Prod.snd)
    _ _ _ hidx ?_
  intro idx' hidx' ng _
  refine List.foldlRecOn
    (motive := fun idx : Index =>
      ∀ nb ∈ idx, ∀ p ∈ nb.2, ∀ x ∈ p.2, x ∈ pairs.map Prod.snd)
    _ _ _ hidx' ?_
  intro idx'' hidx'' g _
  exact indexAdd_namesIn hidx'' hmem

/-- Every entity name referenced by the filtered index is an original
input name. -/
lemma pipelineIndex_names_mem (items : List Entity) :
    ∀ nb ∈ pipelineIndex items, ∀ p ∈ nb.2, ∀ x ∈ p.2,
      x ∈ originalNames items := by
  intro nb hnb p hp x hx
  unfold pipelineIndex dedupFilter at hnb
  rw [List.mem_filter] at hnb
  rw [List.mem_map] at hnb
  obtain ⟨⟨nb₀, hnb₀, rfl⟩, -⟩ := hnb
  simp only at hp
  rw [List.mem_filter] at hp
  rw [List.mem_map] at hp
  obtain ⟨⟨q, hq, rfl⟩, -⟩ := hp
  simp only at hx
  rw [List.mem_dedup] at hx
  have := buildIndex_namesIn _ nb₀ hnb₀ q hq x hx
  rwa [List.map_snd_zip _ _ (by simp [normalizedNames])] at this

/-- Every entity name referenced by the ranked index is an original
input name. -/
lemma rankedIndex_names_mem (items : List Entity) :
    ∀ nb ∈ rankedIndex items, ∀ p ∈ nb.2, ∀ x ∈ p.2,
      x ∈ originalNames items := by
  intro nb hnb p hp x hx
  unfold rankedIndex rankIndex at hnb
  rw [List.mem_map] at hnb
  obtain ⟨nb₀, hnb₀, rfl⟩ := hnb
  simp only at hp
  rw [List.mem_map] at hp
  obtain ⟨q, hq, rfl⟩ := hp
  simp only at hx
  rw [(List.perm_insertionSort _ q.2).mem_iff] at hx
  rw [(List.perm_insertionSort _ nb₀.2).mem_iff] at hq
  exact pipelineIndex_names_mem items nb₀ hnb₀ q hq x hx

lemma addNames_spec (all : List (List Char × Int)) (nms : List (List Char)) :
    ∀ acc, (∀ nm ∈ nms, nm ∈ all.map Prod.fst) →
      ∃ m, addNames all acc nms = some m ∧
        ∀ x, (x ∈ m.map Prod.fst ↔ x ∈ acc.map Prod.fst ∨ x ∈ nms) := by
  induction nms with
  | nil =>
    intro acc _
    exact ⟨acc, rfl, fun x => by simp [addNames]⟩
  | cons nm rest ih =>
    intro acc hmem
    have hs : (dictFind all nm).isSome = true :=
      (dictFind_isSome_iff_mem_keys all nm).mpr (hmem nm (List.mem_cons_self _ _))
    obtain ⟨v, hv⟩ := Option.isSome_iff_exists.mp hs
    obtain ⟨m, hm, hkeys⟩ :=
      ih (dictInsert acc nm v) (fun x hx => hmem x (List.mem_cons_of_mem _ hx))
    refine ⟨m, ?_, ?_⟩
    · simp [addNames, hv, hm]
    · intro x
      rw [hkeys x, mem_keys_dictInsert]
      simp [List.mem_cons]
      tauto

lemma addBucket_spec (all : List (List Char × Int)) (b : Bucket) :
    ∀ acc, (∀ p ∈ b, ∀ nm ∈ p.2, nm ∈ all.map Prod.fst) →
      ∃ m, addBucket all acc b = some m ∧
        ∀ x, (x ∈ m.map Prod.fst ↔
          x ∈ acc.map Prod.fst ∨ ∃ p ∈ b, x ∈ p.2) := by
  induction b with
  | nil =>
    intro acc _
    exact ⟨acc, rfl, fun x => by simp [addBucket]⟩
  | cons p rest ih =>
    intro acc hmem
    obtain ⟨g, nms⟩ := p
    obtain ⟨m₁, hm₁, hk₁⟩ :=
      addNames_spec all nms acc (hmem _ (List.mem_cons_self _ _))
    obtain ⟨m, hm, hkeys⟩ :=
      ih m₁ (fun q hq => hmem q (List.mem_cons_of_mem _ hq))
    refine ⟨m, ?_, ?_⟩
    · simp [addBucket, hm₁, hm]
    · intro x
      rw [hkeys x, hk₁ x]
      constructor
      · rintro ((h | h) | ⟨q, hq, hx⟩)
        · exact Or.inl h
        · exact Or.inr ⟨(g, nms), List.mem_cons_self _ _, h⟩
        · exact Or.inr ⟨q, List.mem_cons_of_mem _ hq, hx⟩
      · rintro (h | ⟨q, hq, hx⟩)
        · exact Or.inl (Or.inl h)
        · rcases List.mem_cons.mp hq with h' | h'
          · subst h'
            exact Or.inl (Or.inr hx)
          · exact Or.inr ⟨q, h', hx⟩

lemma addIndex_spec (all : List (List Char × Int)) (idx : Index) :
    ∀ acc, (∀ nb ∈ idx, ∀ p ∈ nb.2, ∀ nm ∈ p.2, nm ∈ all.map Prod.fst) →
      ∃ m, addIndex all acc idx = some m ∧
        ∀ x, (x ∈ m.map Prod.fst ↔
          x ∈ acc.map Prod.fst ∨ ∃ nb ∈ idx, ∃ p ∈ nb.2, x ∈ p.2) := by
  induction idx with
  | nil =>
    intro acc _
    exact ⟨acc, rfl, fun x => by simp [addIndex]⟩
  | cons nb rest ih =>
    intro acc hmem
    obtain ⟨n, b⟩ := nb
    obtain ⟨m₁, hm₁, hk₁⟩ :=
      addBucket_spec all b acc (hmem _ (List.mem_cons_self _ _))
    obtain ⟨m, hm, hkeys⟩ :=
      ih m₁ (fun q hq => hmem q (List.mem_cons_of_mem _ hq))
    refine ⟨m, ?_, ?_⟩
    · simp [addIndex, hm₁, hm]
    · intro x
      rw [hkeys x, hk₁ x]
      constructor
      · rintro ((h | ⟨p, hp, hx⟩) | ⟨q, hq, p, hp, hx⟩)
        · exact Or.inl h
        · exact Or.inr ⟨(n, b), List.mem_cons_self _ _, p, hp, hx⟩
        · exact Or.inr ⟨q, List.mem_cons_of_mem _ hq, p, hp, hx⟩
      · rintro (h | ⟨q, hq, p, hp, hx⟩)
        · exact Or.inl (Or.inl h)
        · rcases List.mem_cons.mp hq with h' | h'
          · subst h'
            exact Or.inl (Or.inr ⟨p, hp, hx⟩)
          · exact Or.inr ⟨q, h', p, hp, hx⟩

/-- The receipt aggregation of the pipeline's own ranked index always
succeeds, and its key set is the set of names referenced by fragments. -/
lemma specificReceipts_spec (items : List Entity) :
    ∃ m, specificReceipts items = some m ∧
      ∀ x, (x ∈ m.map Prod.fst ↔
        ∃ nb ∈ rankedIndex items, ∃ p ∈ nb.2, x ∈ p.2) := by
  obtain ⟨m, hm, hkeys⟩ := addIndex_spec (allReceipts items) (rankedIndex items)
    [] (fun nb hnb p hp nm hnm =>
      (mem_keys_allReceipts items nm).mpr
        (rankedIndex_names_mem items nb hnb p hp nm hnm))
  refine ⟨m, hm, fun x => ?_⟩
  rw [hkeys x]
  simp

lemma count_le_one_of_nodup (nm : List Char) :
    ∀ l : List (List Char), l.Nodup → l.count nm ≤ 1 := by
  intro l
  induction l with
  | nil => intro _; simp
  | cons x xs ih =>
    intro h
    have hnd := List.nodup_cons.mp h
    by_cases hx : nm = x
    · subst hx
      have h0 : xs.count nm = 0 := List.count_eq_zero.mpr hnd.1
      simp [List.count_cons, h0]
    · have hle := ih hnd.2
      simpa [List.count_cons, hx] using hle

lemma addNames_val (all : List (List Char × Int)) (nms : List (List Char)) :
    ∀ acc m, addNames all acc nms = some m → ∀ x,
      dictFind m x = dictFind acc x ∨ dictFind m x = dictFind all x := by
  induction nms with
  | nil =>
    intro acc m hm x
    simp only [addNames, Option.some.injEq] at hm
    subst hm
    exact Or.inl rfl
  | cons nm rest ih =>
    intro acc m hm x
    cases hv : dictFind all nm with
    | none => simp [addNames, hv] at hm
    | some v =>
      simp only [addNames, hv] at hm
      rcases ih _ _ hm x with h | h
      · by_cases hx : x = nm
        · subst hx
          rw [dictFind_dictInsert_self] at h
          exact Or.inr (by rw [h, hv])
        · rw [dictFind_dictInsert_ne _ _ hx] at h
          exact Or.inl h
      · exact Or.inr h

lemma addBucket_val (all : List (List Char × Int)) (b : Bucket) :
    ∀ acc m, addBucket all acc b = some m → ∀ x,
      dictFind m x = dictFind acc x ∨ dictFind m x = dictFind all x := by
  induction b with
  | nil =>
    intro acc m hm x
    simp only [addBucket, Option.some.injEq] at hm
    subst hm
    exact Or.inl rfl
  | cons p rest ih =>
    intro acc m hm x
    obtain ⟨g, nms⟩ := p
    cases h1 : addNames all acc nms with
    | none => simp [addBucket, h1] at hm
    | some m₁ =>
      simp only [addBucket, h1] at hm
      rcases ih _ _ hm x with h | h
      · rcases addNames_val all nms acc m₁ h1 x with h' | h'
        · exact Or.inl (by rw [h, h'])
        · exact Or.inr (by rw [h, h'])
      · exact Or.inr h

lemma addIndex_val (all : List (List Char × Int)) (idx : Index) :
    ∀ acc m, addIndex all acc idx = some m → ∀ x,
      dictFind m x = dictFind acc x ∨ dictFind m x = dictFind all x := by
  induction idx with
  | nil =>
    intro acc m hm x
    simp only [addIndex, Option.some.injEq] at hm
    subst hm
    exact Or.inl rfl
  | cons nb rest ih =>
    intro acc m hm x
    obtain ⟨n, b⟩ := nb
    cases h1 : addBucket all acc b with
    | none => simp [addIndex, h1] at hm
    | some m₁ =>
      simp only [addIndex, h1] at hm
      rcases ih _ _ hm x with h | h
      · rcases addBucket_val all b acc m₁ h1 x with h' | h'
        · exact Or.inl (by rw [h, h'])
        · exact Or.inr (by rw [h, h'])
      · exact Or.inr h

/-- Every value in `specific_receipts` is copied from `all_receipts`. -/
lemma specificReceipts_val (items : List Entity) (m : List (List Char × Int))
    (hm : specificReceipts items = some m) (x : List Char) :
    dictFind m x = none ∨ dictFind m x = dictFind (allReceipts items) x := by
  have := addIndex_val (allReceipts items) (rankedIndex items) [] m hm x
  simpa [dictFind] using this

/-- C7: the key set of the receipt table equals exactly the union of
entity names appearing across all fragments of the ranked index. -/
theorem C7_receipt_keys (items : List Entity) (x : List Char) :
    x ∈ ((specificReceipts items).getD []).map Prod.fst ↔
      ∃ nb ∈ rankedIndex items, ∃ p ∈ nb.2, x ∈ p.2 := by
  obtain ⟨m, hm, hkeys⟩ := specificReceipts_spec items
  rw [hm]
  exact hkeys x

/-- C9: for every input entity list, every name referenced by the
pipeline's own ranked index is a key of the `all_receipts` lookup, so
receipt aggregation always succeeds (the lookup-error branch is
unreachable). -/
theorem C9_aggregation_never_raises (items : List Entity) :
    (specificReceipts items).isSome = true := by
  obtain ⟨m, hm, -⟩ := specificReceipts_spec items
  simp [hm]

/-- C10: when several records carry the same raw name, the pipeline
conflates them: each fragment of the deduplicated index lists the name
at most once, the `all_receipts` lookup (built left to right) maps the
name to the total of the last such record in input order, and the
receipt table copies its values from that lookup. -/
theorem C10_duplicate_conflation (items : List Entity) (nm : List Char)
    (h : nm ∈ originalNames items) :
    (∃ e, (items.filter (fun it => it.name = nm)).getLast? = some e ∧
        dictFind (allReceipts items) nm = some (totalOrZero e)) ∧
    (∀ nb ∈ pipelineIndex items, ∀ p ∈ nb.2, p.2.count nm ≤ 1) ∧
    (∀ m, specificReceipts items = some m →
        dictFind m nm = none ∨
          dictFind m nm = dictFind (allReceipts items) nm) := by
  refine ⟨?_, ?_, ?_⟩
  · have hne : items.filter (fun it => it.name = nm) ≠ [] := by
      rw [originalNames, List.mem_map] at h
      obtain ⟨e, he, hname⟩ := h
      intro hnil
      rw [List.filter_eq_nil_iff] at hnil
      exact hnil e he (by simp [hname])
    obtain ⟨e, he⟩ := Option.isSome_iff_exists.mp (List.getLast?_isSome.mpr hne)
    exact ⟨e, he, by rw [dictFind_allReceipts, he]; rfl⟩
  · intro nb hnb p hp
    exact count_le_one_of_nodup nm p.2 (((pipelineIndex_inv items) nb hnb).2 p hp).1
  · intro m hm
    exact specificReceipts_val items m hm nm

/-- C10, witness: the conflation facts at a concrete duplicate-name
input (the receipt lookup keeps the second record's total). -/
theorem C10_duplicate_conflation_witness :
    (∃ e, (dupItems.filter (fun it => it.name = str "ACME FUND ONE")).getLast? =
          some e ∧
        dictFind (allReceipts dupItems) (str "ACME FUND ONE") =
          some (totalOrZero e)) ∧
    (∀ nb ∈ pipelineIndex dupItems, ∀ p ∈ nb.2,
        p.2.count (str "ACME FUND ONE") ≤ 1) ∧
    (∀ m, specificReceipts dupItems = some m →
        dictFind m (str "ACME FUND ONE") = none ∨
          dictFind m (str "ACME FUND ONE") =
            dictFind (allReceipts dupItems) (str "ACME FUND ONE")) :=
  C10_duplicate_conflation dupItems (str "ACME FUND ONE") (by decide)

/-- C8, counterexample: `"X;  THE"` (two spaces) does not contain the
marker `"; THE"`, so no relocation fires; whitespace collapse then
produces `"X; THE"`, which does contain the marker, so a second
normalization relocates it — normalization is not idempotent. -/
theorem C8_counterexample :
    normalize (str "X;  THE") = str "X; THE" ∧
    normalize (normalize (str "X;  THE")) = str "THE X" ∧
    normalize (normalize (str "X;  THE")) ≠ normalize (str "X;  THE") := by
  decide

lemma mem_of_startsWith {pat s : List Char} (h : startsWith pat s = true) :
    ∀ c ∈ pat, c ∈ s := by
  induction pat generalizing s with
  | nil =>
    intro c hc
    exact absurd hc (List.not_mem_nil c)
  | cons p ps ih =>
    cases s with
    | nil => simp [startsWith] at h
    | cons a rest =>
      simp only [startsWith, Bool.and_eq_true, decide_eq_true_eq] at h
      intro c hc
      rcases List.mem_cons.mp hc with h' | h'
      · subst h'
        rw [h.1]
        exact List.mem_cons_self _ _
      · exact List.mem_cons_of_mem _ (ih h.2 c h')

lemma mem_of_occursIn {pat s : List Char} (h : occursIn pat s = true) :
    ∀ c ∈ pat, c ∈ s := by
  induction s with
  | nil =>
    cases pat with
    | nil =>
      intro c hc
      exact absurd hc (List.not_mem_nil c)
    | cons p ps => simp [occursIn, startsWith] at h
  | cons a rest ih =>
    simp only [occursIn, Bool.or_eq_true] at h
    rcases h with h | h
    · exact fun c hc => mem_of_startsWith h c hc
    · exact fun c hc => List.mem_cons_of_mem _ (ih h c hc)

lemma mem_stripPunct_not_punct {s : List Char} :
    ∀ c ∈ stripPunct s, isPunct c = false := by
  intro c hc
  rw [stripPunct, List.mem_map] at hc
  obtain ⟨a, _, rfl⟩ := hc
  by_cases ha : isPunct a = true
  · rw [if_pos ha]
    decide
  · rw [if_neg ha]
    cases hb : isPunct a with
    | false => rfl
    | true => exact absurd hb ha

lemma mem_collapseFrom {c : Char} :
    ∀ (b : Bool) (s : List Char), c ∈ collapseFrom b s → c ∈ s := by
  intro b s
  induction s generalizing b with
  | nil => simp [collapseFrom]
  | cons a rest ih =>
    intro hc
    simp only [collapseFrom] at hc
    by_cases ha : a = ' '
    · rw [if_pos ha] at hc
      cases b with
      | true =>
        rw [if_pos rfl] at hc
        exact List.mem_cons_of_mem _ (ih true hc)
      | false =>
        rw [if_neg (by simp)] at hc
        rcases List.mem_cons.mp hc with h' | h'
        · subst h'
          exact List.mem_cons_self _ _
        · exact List.mem_cons_of_mem _ (ih true h')
    · rw [if_neg ha] at hc
      rcases List.mem_cons.mp hc with h' | h'
      · subst h'
        exact List.mem_cons_self _ _
      · exact List.mem_cons_of_mem _ (ih false h')

lemma mem_pyStrip {c : Char} {s : List Char} (hc : c ∈ pyStrip s) : c ∈ s := by
  rw [pyStrip, List.mem_reverse] at hc
  have h1 := (List.dropWhile_suffix isPySpace).subset hc
  rw [List.mem_reverse] at h1
  exact (List.dropWhile_suffix isPySpace).subset h1

lemma normalize_no_punct (s : List Char) :
    ∀ c ∈ normalize s, isPunct c = false := by
  intro c hc
  rw [normalize] at hc
  have h1 := mem_pyStrip hc
  rw [collapseSpaces] at h1
  have h2 := mem_collapseFrom false _ h1
  exact mem_stripPunct_not_punct c h2

lemma occursIn_commaThe_normalize (s : List Char) :
    occursIn commaThe (normalize s) = false := by
  by_contra h
  rw [Bool.not_eq_false] at h
  have hmem : ',' ∈ normalize s := mem_of_occursIn h ',' (by decide)
  have := normalize_no_punct s ',' hmem
  simp [isPunct] at this

lemma collapseFrom_head_ne (s : List Char) :
    ∀ x ∈ (collapseFrom true s).head?, x ≠ ' ' := by
  induction s with
  | nil => simp [collapseFrom]
  | cons a rest ih =>
    by_cases ha : a = ' '
    · simpa [collapseFrom, ha] using ih
    · intro x hx
      simp only [collapseFrom, if_neg ha, List.head?_cons, Option.mem_def,
        Option.some.injEq] at hx
      subst hx
      exact ha

lemma chain'_collapseFrom (s : List Char) :
    ∀ b, (collapseFrom b s).Chain' spacePair := by
  induction s with
  | nil =>
    intro b
    simp [collapseFrom]
  | cons a rest ih =>
    intro b
    by_cases ha : a = ' '
    · cases b with
      | true => simpa [collapseFrom, ha] using ih true
      | false =>
        have heq : collapseFrom false (a :: rest) = a :: collapseFrom true rest := by
          simp [collapseFrom, ha]
        rw [heq, List.chain'_cons']
        refine ⟨?_, ih true⟩
        intro y hy hpair
        exact collapseFrom_head_ne rest y hy hpair.2
    · have heq : collapseFrom b (a :: rest) = a :: collapseFrom false rest := by
        simp [collapseFrom, ha]
      rw [heq, List.chain'_cons']
      exact ⟨fun y _ hpair => ha hpair.1, ih false⟩

lemma collapseFrom_eq_self :
    ∀ s : List Char, s.Chain' spacePair →
      ∀ b : Bool, (b = true → ∀ x ∈ s.head?, x ≠ ' ') →
        collapseFrom b s = s := by
  intro s
  induction s with
  | nil =>
    intro _ b _
    simp [collapseFrom]
  | cons a rest ih =>
    intro hch b hb
    by_cases ha : a = ' '
    · have hbf : b = false := by
        cases b with
        | false => rfl
        | true => exact absurd ha (hb rfl a (by simp))
      subst hbf
      have heq : collapseFrom false (a :: rest) = a :: collapseFrom true rest := by
        simp [collapseFrom, ha]
      rw [heq]
      congr 1
      refine ih hch.tail true ?_
      intro _ y hy hy'
      exact (List.chain'_cons'.mp hch).1 y hy ⟨ha, hy'⟩
    · have heq : collapseFrom b (a :: rest) = a :: collapseFrom false rest := by
        simp [collapseFrom, ha]
      rw [heq]
      congr 1
      exact ih hch.tail false (fun hf => nomatch hf)

lemma spacePair_swap {a b : Char} (h : spacePair a b) : spacePair b a :=
  fun hp => h ⟨hp.2, hp.1⟩

lemma chain'_reverse_spacePair {l : List Char} (h : l.Chain' spacePair) :
    l.reverse.Chain' spacePair := by
  rw [List.chain'_reverse]
  exact h.imp (fun _ _ hab => spacePair_swap hab)

lemma chain'_pyStrip {l : List Char} (h : l.Chain' spacePair) :
    (pyStrip l).Chain' spacePair := by
  rw [pyStrip]
  exact chain'_reverse_spacePair
    ((chain'_reverse_spacePair
        (h.suffix (List.dropWhile_suffix _))).suffix (List.dropWhile_suffix _))

lemma chain'_normalize (s : List Char) : (normalize s).Chain' spacePair := by
  rw [normalize, collapseSpaces]
  exact chain'_pyStrip (chain'_collapseFrom _ false)

lemma head?_dropWhile (p : Char → Bool) (l : List Char) :
    ∀ x ∈ (l.dropWhile p).head?, p x = false := by
  induction l with
  | nil => simp
  | cons a rest ih =>
    intro x hx
    rw [List.dropWhile_cons] at hx
    by_cases ha : p a = true
    · rw [if_pos ha] at hx
      exact ih x hx
    · rw [if_neg ha] at hx
      have hxa : a = x := by simpa using hx
      subst hxa
      simpa using ha

lemma dropWhile_eq_self_of_head (p : Char → Bool) (l : List Char)
    (h : ∀ x ∈ l.head?, p x = false) : l.dropWhile p = l := by
  cases l with
  | nil => rfl
  | cons a rest =>
    have ha := h a (by simp)
    rw [List.dropWhile_cons, if_neg (by simp [ha])]

lemma strip_core (l : List Char)
    (hhead : ∀ x ∈ l.head?, isPySpace x = false)
    (hlast : ∀ x ∈ l.getLast?, isPySpace x = false) : pyStrip l = l := by
  rw [pyStrip]
  rw [dropWhile_eq_self_of_head _ _ hhead]
  rw [dropWhile_eq_self_of_head _ _ (by rw [List.head?_reverse]; exact hlast)]
  exact List.reverse_reverse l

lemma getLast?_dropWhile_reverse (p : Char → Bool) (l : List Char)
    (h : l.reverse.dropWhile p ≠ []) :
    (l.reverse.dropWhile p).getLast? = l.head? := by
  obtain ⟨t, ht⟩ := List.dropWhile_suffix (l := l.reverse) p
  have hkeep : (t ++ l.reverse.dropWhile p).getLast? =
      (l.reverse.dropWhile p).getLast? := by
    rw [List.getLast?_append]
    obtain ⟨y, hy⟩ := Option.isSome_iff_exists.mp (List.getLast?_isSome.mpr h)
    rw [hy]
    rfl
  rw [← hkeep, ht, List.getLast?_reverse]

lemma head_pyStrip (s : List Char) :
    ∀ x ∈ (pyStrip s).head?, isPySpace x = false := by
  intro x hx
  rw [pyStrip, List.head?_reverse] at hx
  by_cases hC : (s.dropWhile isPySpace).reverse.dropWhile isPySpace = []
  · rw [hC] at hx
    simp at hx
  · rw [getLast?_dropWhile_reverse _ _ hC] at hx
    exact head?_dropWhile isPySpace s x hx

lemma last_pyStrip (s : List Char) :
    ∀ x ∈ (pyStrip s).getLast?, isPySpace x = false := by
  intro x hx
  rw [pyStrip, List.getLast?_reverse] at hx
  exact head?_dropWhile isPySpace _ x hx

lemma pyStrip_idem (s : List Char) : pyStrip (pyStrip s) = pyStrip s :=
  strip_core _ (head_pyStrip s) (last_pyStrip s)

/-- C8, amended: normalization is idempotent on every string whose
normalized form does not contain `"; THE"` (a comma marker can never
survive, since commas are replaced by spaces, but semicolons are kept,
so only the semicolon marker can reappear). -/
theorem C8_amended (s : List Char)
    (h : occursIn semiThe (normalize s) = false) :
    normalize (normalize s) = normalize s := by
  have hcomma := occursIn_commaThe_normalize s
  have hrel : relocateArticle (normalize s) = normalize s := by
    simp [relocateArticle, h, hcomma]
  have hpunct : stripPunct (normalize s) = normalize s := by
    have hmap : (normalize s).map (fun c => if isPunct c then ' ' else c)
        = (normalize s).map id :=
      List.map_congr_left (fun c hc => by
        have hcp := normalize_no_punct s c hc
        simp [hcp])
    rw [stripPunct, hmap, List.map_id]
  have hcol : collapseSpaces (normalize s) = normalize s := by
    rw [collapseSpaces]
    exact collapseFrom_eq_self (normalize s) (chain'_normalize s) false
      (fun hf => nomatch hf)
  have hstrip : pyStrip (normalize s) = normalize s := by
    have h1 : pyStrip (normalize s) =
        pyStrip (pyStrip (collapseSpaces (stripPunct (relocateArticle s)))) := rfl
    rw [h1, pyStrip_idem]
    rfl
  show pyStrip (collapseSpaces (stripPunct (relocateArticle (normalize s))))
      = normalize s
  rw [hrel, hpunct, hcol, hstrip]

/-- C8, witness for the amended theorem's hypothesis at a concrete
input. -/
theorem C8_amended_witness :
    occursIn semiThe (normalize (str "ACME PAC, THE")) = false ∧
    normalize (normalize (str "ACME PAC, THE")) = normalize (str "ACME PAC, THE") :=
  ⟨by decide, C8_amended (str "ACME PAC, THE") (by decide)⟩

end Superpacs
